import Mathlib

/-!
Verification of the meal-bot pipeline (src/ecuadorian_meal_bot.py) via a
shallow embedding in Lean.  Strings from the Python program are modelled as
`String` (dates, compared with the lexicographic order, which coincides with
the Python string order on code points) or as `List Char` (message text and
model names, where index arithmetic matters).  Machine interaction (the file
system, the two HTTP endpoints) is modelled by explicit parameters: the
stored file contents, and response functions supplied to each operation.
-/

/-! ## Data model: persisted history (recipe_history.json) -/

/-- One entry of the recipes array: a day-granularity ISO date string plus the
stored meal labels (first lines of the generated plan). -/
structure Recipe where
  date : String
  meals : List (List Char)
deriving DecidableEq

/-- The persisted state: recipes plus the optional last_sent date, mirroring
the JSON object written by save_history. -/
structure History where
  recipes : List Recipe
  last_sent : Option String
deriving DecidableEq

/-- load_history: the stored file is `none` when absent, `some none` when it
exists but json.load raises (corrupt contents), and `some (some h)` when it
parses.  The Python code only guards absence (os.path.exists); a parse error
from json.load propagates out of the function uncaught, which we model as
`Except.error ()`. -/
def load_history : Option (Option History) → Except Unit History
  | none => Except.ok ⟨[], none⟩
  | some none => Except.error ()
  | some (some h) => Except.ok h

/-- clean_old_recipes keeps the records whose date string compares strictly
greater than the cutoff string; in the Python code the cutoff is
(datetime.now() - timedelta(days=14)).isoformat(), passed here as the
`cutoff_date` parameter since it is read from the environment. -/
def clean_old_recipes (cutoff_date : String) (history : History) : History :=
  { history with recipes := history.recipes.filter (fun r => decide (cutoff_date < r.date)) }

/-! ## Send gate -/

/-- is_workday: datetime.now().weekday() < 5; the weekday number is passed in
(Monday = 0 .. Sunday = 6). -/
def is_workday (weekday : Nat) : Bool :=
  decide (weekday < 5)

/-- should_send_today: false on a non-workday, otherwise true exactly when the
stored last_sent differs from the current date string (a missing key reads as
None, modelled by the `Option`). -/
def should_send_today (weekday : Nat) (today : String) (history : History) : Bool :=
  if is_workday weekday then decide (history.last_sent ≠ some today) else false

/-! ## Helper lemmas on filter -/

theorem filter_congr_mem {α : Type} (p q : α → Bool) :
    ∀ l : List α, (∀ x ∈ l, p x = q x) → l.filter p = l.filter q
  | [], _ => rfl
  | a :: t, h => by
    have ha := h a (List.mem_cons_self a t)
    have ht := filter_congr_mem p q t (fun x hx => h x (List.mem_cons_of_mem a hx))
    cases hq : q a <;> simp [List.filter_cons, ha, hq, ht]

theorem filter_idem {α : Type} (p : α → Bool) :
    ∀ l : List α, (l.filter p).filter p = l.filter p
  | [] => rfl
  | a :: t => by
    cases hp : p a <;> simp [List.filter_cons, hp, filter_idem p t]

/-! ## Claims about the history store and the gate -/

/-- C2 counterexample: the claim says a corrupt (unparseable) history file
loads as the empty state; in the code json.load raises and nothing catches it,
so the load fails instead of returning the empty state. -/
theorem C2_counterexample :
    load_history (some none) = Except.error () ∧
    load_history (some none) ≠ Except.ok (⟨[], none⟩ : History) :=
  ⟨rfl, fun hcontra => Except.noConfusion hcontra⟩

/-- C2 (amended): loading an absent file yields the empty state
(recipes = [], last_sent = None); a parseable file yields its contents; a
corrupt file makes the load raise (the error propagates, it is not converted
into the empty state). -/
theorem C2_load_history_behavior :
    load_history none = Except.ok (⟨[], none⟩ : History) ∧
    (∀ h : History, load_history (some (some h)) = Except.ok h) ∧
    load_history (some none) = Except.error () :=
  ⟨rfl, fun _ => rfl, rfl⟩

/-- C4: pruning with cutoff string c (the isoformat of now - 14 days) keeps
exactly the records whose date is not strictly older than c, preserves the
relative order of the kept records (the result is a sublist of the input), and
is idempotent.  The hypothesis that no record date equals the cutoff string
holds for all states the program writes: record dates are day-granularity
strings of length 10 while the cutoff is a full isoformat timestamp. -/
theorem C4_prune_exact (cutoff : String) (h : History)
    (hne : ∀ r ∈ h.recipes, r.date ≠ cutoff) :
    (clean_old_recipes cutoff h).recipes
        = h.recipes.filter (fun r => decide (¬ r.date < cutoff)) ∧
    clean_old_recipes cutoff (clean_old_recipes cutoff h) = clean_old_recipes cutoff h ∧
    List.Sublist (clean_old_recipes cutoff h).recipes h.recipes := by
  refine ⟨?_, ?_, ?_⟩
  · show h.recipes.filter (fun r => decide (cutoff < r.date)) = _
    apply filter_congr_mem
    intro r hr
    have hner : r.date ≠ cutoff := hne r hr
    have hiff : (cutoff < r.date) ↔ (¬ r.date < cutoff) := by
      constructor
      · intro hlt hlt2
        exact absurd hlt (lt_asymm hlt2)
      · intro hnlt
        rcases lt_or_gt_of_ne hner with hcase | hcase
        · exact absurd hcase hnlt
        · exact hcase
    simp [hiff]
  · simp [clean_old_recipes, filter_idem]
  · exact List.filter_sublist h.recipes

/-- C4 witness: the prune characterisation at a concrete history and cutoff. -/
theorem C4_prune_witness :
    (clean_old_recipes ("2026-09-28T12:00:00.000000")
        (⟨[⟨"2026-09-20", []⟩, ⟨"2026-09-30", []⟩], some "2026-10-10"⟩ : History)).recipes
        = (⟨[⟨"2026-09-20", []⟩, ⟨"2026-09-30", []⟩], some "2026-10-10"⟩ : History).recipes.filter
            (fun r => decide (¬ r.date < "2026-09-28T12:00:00.000000")) ∧
    clean_old_recipes ("2026-09-28T12:00:00.000000")
        (clean_old_recipes ("2026-09-28T12:00:00.000000")
          (⟨[⟨"2026-09-20", []⟩, ⟨"2026-09-30", []⟩], some "2026-10-10"⟩ : History))
        = clean_old_recipes ("2026-09-28T12:00:00.000000")
            (⟨[⟨"2026-09-20", []⟩, ⟨"2026-09-30", []⟩], some "2026-10-10"⟩ : History) ∧
    List.Sublist
      (clean_old_recipes ("2026-09-28T12:00:00.000000")
        (⟨[⟨"2026-09-20", []⟩, ⟨"2026-09-30", []⟩], some "2026-10-10"⟩ : History)).recipes
      (⟨[⟨"2026-09-20", []⟩, ⟨"2026-09-30", []⟩], some "2026-10-10"⟩ : History).recipes :=
  C4_prune_exact _ _ (by decide)

/-- C8: the gate is false on Saturday (5) and Sunday (6) regardless of
history, false whenever last_sent equals today, and true on a workday when
last_sent differs from today. -/
theorem C8_gate (weekday : Nat) (today : String) (h : History) :
    ((weekday = 5 ∨ weekday = 6) → should_send_today weekday today h = false) ∧
    (h.last_sent = some today → should_send_today weekday today h = false) ∧
    (weekday < 5 → h.last_sent ≠ some today → should_send_today weekday today h = true) := by
  refine ⟨?_, ?_, ?_⟩
  · rintro (rfl | rfl) <;> simp [should_send_today, is_workday]
  · intro hlast
    by_cases hw : weekday < 5 <;> simp [should_send_today, is_workday, hw, hlast]
  · intro hw hlast
    simp [should_send_today, is_workday, hw, hlast]

/-- C8 witness: the gate at concrete inputs — a Sunday, a Thursday already
sent, and a Thursday not yet sent. -/
theorem C8_gate_witness :
    should_send_today 6 ("2026-10-11") (⟨[], none⟩ : History) = false ∧
    should_send_today 3 ("2026-10-08") (⟨[], some "2026-10-08"⟩ : History) = false ∧
    should_send_today 3 ("2026-10-08") (⟨[], none⟩ : History) = true :=
  ⟨(C8_gate 6 _ _).1 (Or.inr rfl), (C8_gate 3 _ _).2.1 rfl,
    (C8_gate 3 _ _).2.2 (by decide) (by decide)⟩

/-! ## Message dispatcher: chunk splitting

The Python loop in send_telegram_message repeatedly cuts the message at the
last line boundary in the first MAX_LENGTH characters (rfind returns -1 when
there is none, in which case the cut is a hard cut at MAX_LENGTH).  The loop
is modelled with explicit fuel: each productive iteration removes at least one
character, so fuel length+1 suffices whenever the loop terminates, and a
`none` result for every fuel means the loop runs forever. -/

/-- The MAX_LENGTH transport limit from send_telegram_message. -/
def MAX_LENGTH : Nat := 4000

/-- message.rfind of a newline over message[0:n]: the largest index i with
i < n, i < length, and the character at i a newline; none when rfind = -1. -/
def lastNlIdx : List Char → Nat → Option Nat
  | [], _ => none
  | _ :: _, 0 => none
  | c :: cs, n + 1 =>
    match lastNlIdx cs n with
    | some i => some (i + 1)
    | none => if c = '\n' then some 0 else none

/-- The while loop of send_telegram_message building `parts`: break with the
whole remainder once it fits, otherwise cut at the last line boundary in range
(hard cut at MAX_LENGTH when rfind gives -1) and continue on the rest. -/
def chunkParts (fuel : Nat) (msg : List Char) : Option (List (List Char)) :=
  if msg.isEmpty then some []
  else if msg.length ≤ MAX_LENGTH then some [msg]
  else
    match fuel with
    | 0 => none
    | f + 1 =>
      let k := (lastNlIdx msg MAX_LENGTH).getD MAX_LENGTH
      (chunkParts f (msg.drop k)).map (fun rest => msg.take k :: rest)

/-- The split as the dispatcher runs it: fuel length+1 covers every
terminating execution of the loop, since each productive step drops at least
one character. -/
def splitMessage (msg : List Char) : Option (List (List Char)) :=
  chunkParts (msg.length + 1) msg

theorem lastNlIdx_cons_nl_none (l : List Char) (n : Nat) (h : lastNlIdx l n = none) :
    lastNlIdx ('\n' :: l) (n + 1) = some 0 := by
  simp [lastNlIdx, h]

theorem lastNlIdx_cons_nl_some (l : List Char) (n i : Nat) (h : lastNlIdx l n = some i) :
    lastNlIdx ('\n' :: l) (n + 1) = some (i + 1) := by
  simp [lastNlIdx, h]

theorem lastNlIdx_replicate (c : Char) (hc : ¬ c = '\n') :
    ∀ (k n : Nat), lastNlIdx (List.replicate k c) n = none := by
  intro k
  induction k with
  | zero => intro n; rfl
  | succ m ih =>
    intro n
    cases n with
    | zero => rfl
    | succ n' => simp [List.replicate, lastNlIdx, ih n', hc]

theorem lastNlIdx_append_le (l₁ l₂ : List Char) :
    ∀ n : Nat, n ≤ l₁.length → lastNlIdx (l₁ ++ l₂) n = lastNlIdx l₁ n := by
  induction l₁ with
  | nil =>
    intro n hn
    have hn0 : n = 0 := Nat.le_zero.mp hn
    subst hn0
    cases l₂ <;> rfl
  | cons c cs ih =>
    intro n hn
    cases n with
    | zero => rfl
    | succ n' =>
      have hn' : n' ≤ cs.length := Nat.succ_le_succ_iff.mp hn
      simp only [List.cons_append, lastNlIdx, List.append_eq]
      rw [ih n' hn']

theorem lastNlIdx_nonl_append (l₁ l₂ : List Char) (hno : '\n' ∉ l₁) :
    ∀ m : Nat, lastNlIdx (l₁ ++ l₂) (l₁.length + m)
      = (lastNlIdx l₂ m).map (fun i => l₁.length + i) := by
  induction l₁ with
  | nil =>
    intro m
    simp only [List.nil_append, List.length_nil, Nat.zero_add]
    cases lastNlIdx l₂ m <;> simp
  | cons c cs ih =>
    intro m
    have hc : ¬ c = '\n' := by
      intro h
      exact hno (h ▸ List.mem_cons_self c cs)
    have hcs : '\n' ∉ cs := fun h => hno (List.mem_cons_of_mem c h)
    have harith : (c :: cs).length + m = (cs.length + m) + 1 := by
      simp [List.length_cons]
      omega
    rw [harith]
    simp only [List.cons_append, lastNlIdx, List.append_eq]
    rw [ih hcs m]
    cases lastNlIdx l₂ m with
    | none => simp [hc]
    | some i =>
      simp only [Option.map_some', Option.some.injEq, List.length_cons]
      omega

theorem lastNlIdx_bound : ∀ (s : List Char) (n i : Nat),
    lastNlIdx s n = some i → i < n ∧ s[i]? = some '\n' := by
  intro s
  induction s with
  | nil => intro n i h; cases h
  | cons c cs ih =>
    intro n i h
    cases n with
    | zero => cases h
    | succ n' =>
      simp only [lastNlIdx] at h
      cases heq : lastNlIdx cs n' with
      | some j =>
        rw [heq] at h
        simp only [Option.some.injEq] at h
        obtain ⟨hj, hget⟩ := ih n' j heq
        subst h
        exact ⟨Nat.succ_lt_succ hj, by simpa using hget⟩
      | none =>
        rw [heq] at h
        by_cases hc : c = '\n'
        · simp [hc] at h
          have hi : i = 0 := by omega
          subst hi
          exact ⟨Nat.succ_pos n', by simp [hc]⟩
        · simp [hc] at h

theorem chunkParts_base (fuel : Nat) (msg : List Char) (hne : msg ≠ [])
    (hle : msg.length ≤ MAX_LENGTH) : chunkParts fuel msg = some [msg] := by
  rw [chunkParts.eq_def]
  simp [hne, hle]

theorem chunkParts_step (f : Nat) (msg : List Char) (k : Nat)
    (hlen : MAX_LENGTH < msg.length)
    (hk : (lastNlIdx msg MAX_LENGTH).getD MAX_LENGTH = k) :
    chunkParts (f + 1) msg
      = (chunkParts f (msg.drop k)).map (fun rest => msg.take k :: rest) := by
  have hne : msg ≠ [] := by
    intro h
    rw [h] at hlen
    simp at hlen
  rw [chunkParts.eq_def]
  simp [hne, Nat.not_le.mpr hlen, hk]

theorem chunkParts_stuck (msg : List Char) (hlen : MAX_LENGTH < msg.length)
    (hk : (lastNlIdx msg MAX_LENGTH).getD MAX_LENGTH = 0) :
    ∀ fuel, chunkParts fuel msg = none := by
  have hne : msg ≠ [] := by
    intro h
    rw [h] at hlen
    simp at hlen
  intro fuel
  induction fuel with
  | zero =>
    rw [chunkParts.eq_def]
    simp [hne, Nat.not_le.mpr hlen]
  | succ f ih =>
    rw [chunkParts_step f msg 0 hlen hk, List.drop_zero, ih]
    rfl

theorem chunkParts_head (fuel : Nat) (msg : List Char) (rest : List (List Char))
    (hsome : chunkParts fuel msg = some rest) (hne : msg ≠ []) :
    ∃ first others, rest = first :: others ∧ first.head? = msg.head? := by
  by_cases hle : msg.length ≤ MAX_LENGTH
  · rw [chunkParts_base fuel msg hne hle] at hsome
    refine ⟨msg, [], ?_, rfl⟩
    exact (Option.some.injEq _ _ ▸ hsome).symm
  · have hlen : MAX_LENGTH < msg.length := Nat.not_le.mp hle
    cases fuel with
    | zero =>
      rw [chunkParts.eq_def] at hsome
      simp [hne, hle] at hsome
    | succ f =>
      rw [chunkParts_step f msg _ hlen rfl] at hsome
      by_cases hk0 : (lastNlIdx msg MAX_LENGTH).getD MAX_LENGTH = 0
      · rw [hk0, List.drop_zero, chunkParts_stuck msg hlen hk0 f] at hsome
        cases hsome
      · cases hc : chunkParts f (msg.drop ((lastNlIdx msg MAX_LENGTH).getD MAX_LENGTH)) with
        | none =>
          rw [hc] at hsome
          cases hsome
        | some r =>
          rw [hc] at hsome
          simp only [Option.map_some', Option.some.injEq] at hsome
          refine ⟨msg.take ((lastNlIdx msg MAX_LENGTH).getD MAX_LENGTH), r, hsome.symm, ?_⟩
          obtain ⟨c, t, rfl⟩ : ∃ c t, msg = c :: t := by
            cases msg with
            | nil => exact absurd rfl hne
            | cons c t => exact ⟨c, t, rfl⟩
          obtain ⟨j, hj⟩ : ∃ j, (lastNlIdx (c :: t) MAX_LENGTH).getD MAX_LENGTH = j + 1 := by
            refine ⟨(lastNlIdx (c :: t) MAX_LENGTH).getD MAX_LENGTH - 1, ?_⟩
            omega
          rw [hj]
          simp

/-- C5 (amended): whenever the splitting loop terminates, every chunk is at
most MAX_LENGTH characters, the concatenation of the chunks reproduces the
original text exactly, and every adjacent pair of chunks witnesses the cut
rule: either the earlier chunk is a hard cut of exactly MAX_LENGTH characters
(no line boundary was in range) or the later chunk starts at a line boundary.
The chunk count is not always 3 for a 9000-character input (see the
counterexample), and the loop does not terminate on every input (see C10). -/
theorem C5_chunk_roundtrip : ∀ (fuel : Nat) (msg : List Char) (parts : List (List Char)),
    chunkParts fuel msg = some parts →
    (∀ p ∈ parts, p.length ≤ MAX_LENGTH) ∧ parts.flatten = msg ∧
    List.Chain' (fun a b => a.length = MAX_LENGTH ∨ b.head? = some '\n') parts := by
  intro fuel
  induction fuel with
  | zero =>
    intro msg parts hp
    by_cases hmsg : msg = []
    · subst hmsg
      rw [chunkParts.eq_def] at hp
      simp only [List.isEmpty_nil, if_true] at hp
      obtain rfl : ([] : List (List Char)) = parts := Option.some.injEq _ _ ▸ hp
      simp
    · by_cases hle : msg.length ≤ MAX_LENGTH
      · rw [chunkParts_base 0 msg hmsg hle] at hp
        obtain rfl : [msg] = parts := Option.some.injEq _ _ ▸ hp
        refine ⟨?_, by simp, by simp⟩
        intro p hpmem
        rw [List.mem_singleton.mp hpmem]
        exact hle
      · rw [chunkParts.eq_def] at hp
        simp [hmsg, hle] at hp
  | succ f ih =>
    intro msg parts hp
    by_cases hmsg : msg = []
    · subst hmsg
      rw [chunkParts.eq_def] at hp
      simp only [List.isEmpty_nil, if_true] at hp
      obtain rfl : ([] : List (List Char)) = parts := Option.some.injEq _ _ ▸ hp
      simp
    · by_cases hle : msg.length ≤ MAX_LENGTH
      · rw [chunkParts_base (f + 1) msg hmsg hle] at hp
        obtain rfl : [msg] = parts := Option.some.injEq _ _ ▸ hp
        refine ⟨?_, by simp, by simp⟩
        intro p hpmem
        rw [List.mem_singleton.mp hpmem]
        exact hle
      · have hlen : MAX_LENGTH < msg.length := Nat.not_le.mp hle
        rw [chunkParts_step f msg _ hlen rfl] at hp
        cases hc : chunkParts f (msg.drop ((lastNlIdx msg MAX_LENGTH).getD MAX_LENGTH)) with
        | none =>
          rw [hc] at hp
          cases hp
        | some rest =>
          rw [hc] at hp
          simp only [Option.map_some', Option.some.injEq] at hp
          subst hp
          obtain ⟨ihb, ihj, ihc⟩ := ih _ _ hc
          have hkle : (lastNlIdx msg MAX_LENGTH).getD MAX_LENGTH ≤ MAX_LENGTH := by
            cases heq : lastNlIdx msg MAX_LENGTH with
            | none => simp
            | some i =>
              have := (lastNlIdx_bound msg MAX_LENGTH i heq).1
              simp
              omega
          refine ⟨?_, ?_, ?_⟩
          · intro p hpmem
            cases List.mem_cons.mp hpmem with
            | inl hfirst =>
              subst hfirst
              calc (msg.take ((lastNlIdx msg MAX_LENGTH).getD MAX_LENGTH)).length
                  ≤ (lastNlIdx msg MAX_LENGTH).getD MAX_LENGTH := List.length_take_le _ _
                _ ≤ MAX_LENGTH := hkle
            | inr htail => exact ihb p htail
          · simp only [List.flatten_cons]
            rw [ihj, List.take_append_drop]
          · cases rest with
            | nil => simp
            | cons first others =>
              refine List.chain'_cons.mpr ⟨?_, ihc⟩
              cases heq : lastNlIdx msg MAX_LENGTH with
              | none =>
                left
                simp only [heq, Option.getD_none]
                rw [List.length_take]
                omega
              | some i =>
                right
                have hk : (lastNlIdx msg MAX_LENGTH).getD MAX_LENGTH = i := by
                  simp [heq]
                rw [hk] at hc
                obtain ⟨hilt, hinl⟩ := lastNlIdx_bound msg MAX_LENGTH i heq
                have hipos : i ≠ 0 := by
                  intro h0
                  subst h0
                  have hstuck := chunkParts_stuck msg hlen (by simp [heq]) f
                  rw [List.drop_zero] at hc
                  rw [hstuck] at hc
                  cases hc
                have hdropne : msg.drop i ≠ [] := by
                  intro hdn
                  have := List.drop_eq_nil_iff.mp hdn
                  have hmax : MAX_LENGTH < i := by omega
                  omega
                obtain ⟨first2, others2, heq2, hhead⟩ :=
                  chunkParts_head f (msg.drop i) (first :: others) hc hdropne
                have hfirst2 : first = first2 := by
                  injection heq2 with h1 h2
                rw [hfirst2, hhead, List.head?_drop]
                exact hinl

/-- C5 witness: the roundtrip properties instantiated on a concrete message
that fits in one chunk. -/
theorem C5_chunk_roundtrip_witness :
    (∀ p ∈ [['a']], p.length ≤ MAX_LENGTH) ∧ ([['a']] : List (List Char)).flatten = ['a'] ∧
    List.Chain' (fun a b => a.length = MAX_LENGTH ∨ b.head? = some '\n') [['a']] :=
  C5_chunk_roundtrip 1 ['a'] [['a']] (by decide)

/-- C10: the splitting loop does not terminate on every input.  On a message
longer than MAX_LENGTH whose only line boundary in the first MAX_LENGTH
characters sits at position 0 (exactly the state every iteration after a
line-boundary cut starts in), rfind returns 0, the loop appends an empty chunk
and leaves the message unchanged, so no amount of fuel makes it finish. -/
theorem C10_split_loop_diverges :
    ∀ fuel, chunkParts fuel ('\n' :: List.replicate MAX_LENGTH 'b') = none := by
  have hlen : MAX_LENGTH < ('\n' :: List.replicate MAX_LENGTH 'b').length := by
    simp
  have hnl : lastNlIdx ('\n' :: List.replicate MAX_LENGTH 'b') MAX_LENGTH = some 0 := by
    have h4000 : MAX_LENGTH = 3999 + 1 := by norm_num [MAX_LENGTH]
    rw [h4000]
    exact lastNlIdx_cons_nl_none _ _ (lastNlIdx_replicate 'b' (by decide) _ 3999)
  exact chunkParts_stuck _ hlen (by simp [hnl])

/-- Segment of 2000 letters with no line boundary, for the C5 counterexample. -/
def exSegA : List Char := List.replicate 2000 'a'

/-- Segment of 2499 letters with no line boundary. -/
def exSegB : List Char := List.replicate 2499 'b'

/-- Segment of 1999 letters with no line boundary. -/
def exSegC : List Char := List.replicate 1999 'c'

/-- Segment of 2498 letters with no line boundary. -/
def exSegD : List Char := List.replicate 2498 'd'

/-- A 9000-character message whose line boundaries sit at positions 2000,
4500, 6500 and 8999, which drives the splitter to four chunks. -/
def exMsg : List Char :=
  exSegA ++ ('\n' :: (exSegB ++ ('\n' :: (exSegC ++ ('\n' :: (exSegD ++ ['\n']))))))

theorem exSegA_length : exSegA.length = 2000 := List.length_replicate 2000 'a'

theorem exSegB_length : exSegB.length = 2499 := List.length_replicate 2499 'b'

theorem exSegC_length : exSegC.length = 1999 := List.length_replicate 1999 'c'

theorem exSegD_length : exSegD.length = 2498 := List.length_replicate 2498 'd'

theorem exMsg_length : exMsg.length = 9000 := by
  show (exSegA ++ ('\n' :: (exSegB ++ ('\n' :: (exSegC ++ ('\n' :: (exSegD ++ ['\n']))))))).length
      = 9000
  simp only [List.length_append, List.length_cons, List.length_nil,
    exSegA_length, exSegB_length, exSegC_length, exSegD_length]

/-- C5 counterexample: a 9000-character input that the dispatcher splits into
4 chunks, not 3 — each cut lands on a line boundary well before MAX_LENGTH, so
the chunk count depends on where the line boundaries sit. -/
theorem C5_counterexample :
    exMsg.length = 9000 ∧ (splitMessage exMsg).map List.length = some 4 := by
  have hA : exSegA.length = 2000 := exSegA_length
  have hB : exSegB.length = 2499 := exSegB_length
  have hC : exSegC.length = 1999 := exSegC_length
  have hD : exSegD.length = 2498 := exSegD_length
  have hnoA : '\n' ∉ exSegA := fun h => absurd (List.eq_of_mem_replicate h) (by decide)
  have hnoB : '\n' ∉ exSegB := fun h => absurd (List.eq_of_mem_replicate h) (by decide)
  have hnoC : '\n' ∉ exSegC := fun h => absurd (List.eq_of_mem_replicate h) (by decide)
  have hInner1 :
      lastNlIdx ('\n' :: (exSegB ++ ('\n' :: (exSegC ++ ('\n' :: (exSegD ++ ['\n'])))))) 2000
        = some 0 := by
    rw [show (2000 : Nat) = 1999 + 1 from by norm_num]
    apply lastNlIdx_cons_nl_none
    rw [lastNlIdx_append_le exSegB _ 1999 (by rw [hB]; decide)]
    exact lastNlIdx_replicate 'b' (by decide) 2499 1999
  have k1 : lastNlIdx exMsg MAX_LENGTH = some 2000 := by
    rw [show exMsg
        = exSegA ++ ('\n' :: (exSegB ++ ('\n' :: (exSegC ++ ('\n' :: (exSegD ++ ['\n']))))))
      from rfl]
    rw [show MAX_LENGTH = exSegA.length + 2000 from by rw [hA]; decide]
    rw [lastNlIdx_nonl_append exSegA _ hnoA 2000, hInner1]
    simp [hA]
  have hlen1 : MAX_LENGTH < exMsg.length := by
    rw [exMsg_length]
    norm_num [MAX_LENGTH]
  have s1 : chunkParts (9000 + 1) exMsg
      = (chunkParts 9000 (exMsg.drop 2000)).map (fun rest => exMsg.take 2000 :: rest) :=
    chunkParts_step 9000 exMsg 2000 hlen1 (by rw [k1]; rfl)
  have d1 : exMsg.drop 2000
      = '\n' :: (exSegB ++ ('\n' :: (exSegC ++ ('\n' :: (exSegD ++ ['\n']))))) := by
    rw [show exMsg
        = exSegA ++ ('\n' :: (exSegB ++ ('\n' :: (exSegC ++ ('\n' :: (exSegD ++ ['\n']))))))
      from rfl]
    rw [show (2000 : Nat) = exSegA.length from hA.symm, List.drop_left]
  have t1 : exMsg.take 2000 = exSegA := by
    rw [show exMsg
        = exSegA ++ ('\n' :: (exSegB ++ ('\n' :: (exSegC ++ ('\n' :: (exSegD ++ ['\n']))))))
      from rfl]
    rw [show (2000 : Nat) = exSegA.length from hA.symm, List.take_left]
  have hInner2 : lastNlIdx ('\n' :: (exSegC ++ ('\n' :: (exSegD ++ ['\n'])))) 1500 = some 0 := by
    rw [show (1500 : Nat) = 1499 + 1 from by norm_num]
    apply lastNlIdx_cons_nl_none
    rw [lastNlIdx_append_le exSegC _ 1499 (by rw [hC]; decide)]
    exact lastNlIdx_replicate 'c' (by decide) 1999 1499
  have hMid2 : lastNlIdx (exSegB ++ ('\n' :: (exSegC ++ ('\n' :: (exSegD ++ ['\n']))))) 3999
      = some 2499 := by
    rw [show (3999 : Nat) = exSegB.length + 1500 from by rw [hB]]
    rw [lastNlIdx_nonl_append exSegB _ hnoB 1500, hInner2]
    simp [hB]
  have k2 : lastNlIdx ('\n' :: (exSegB ++ ('\n' :: (exSegC ++ ('\n' :: (exSegD ++ ['\n']))))))
      MAX_LENGTH = some 2500 := by
    rw [show MAX_LENGTH = 3999 + 1 from by norm_num [MAX_LENGTH]]
    rw [lastNlIdx_cons_nl_some _ 3999 2499 hMid2]
  have hlen2 : MAX_LENGTH
      < ('\n' :: (exSegB ++ ('\n' :: (exSegC ++ ('\n' :: (exSegD ++ ['\n'])))))).length := by
    simp only [MAX_LENGTH, List.length_cons, List.length_append, List.length_nil,
      exSegB_length, exSegC_length, exSegD_length]
    omega
  have s2 : chunkParts 9000 ('\n' :: (exSegB ++ ('\n' :: (exSegC ++ ('\n' :: (exSegD ++ ['\n']))))))
      = (chunkParts 8999
            (('\n' :: (exSegB ++ ('\n' :: (exSegC ++ ('\n' :: (exSegD ++ ['\n'])))))).drop 2500)).map
          (fun rest =>
            (('\n' :: (exSegB ++ ('\n' :: (exSegC ++ ('\n' :: (exSegD ++ ['\n'])))))).take 2500)
              :: rest) := by
    rw [show (9000 : Nat) = 8999 + 1 from by norm_num]
    exact chunkParts_step 8999 _ 2500 hlen2 (by rw [k2]; rfl)
  have d2 : (('\n' :: (exSegB ++ ('\n' :: (exSegC ++ ('\n' :: (exSegD ++ ['\n'])))))).drop 2500)
      = '\n' :: (exSegC ++ ('\n' :: (exSegD ++ ['\n']))) := by
    rw [show ('\n' :: (exSegB ++ ('\n' :: (exSegC ++ ('\n' :: (exSegD ++ ['\n']))))))
        = ('\n' :: exSegB) ++ ('\n' :: (exSegC ++ ('\n' :: (exSegD ++ ['\n']))))
      from by rw [List.cons_append]]
    rw [show (2500 : Nat) = ('\n' :: exSegB).length
      from by rw [List.length_cons, hB], List.drop_left]
  have t2 : (('\n' :: (exSegB ++ ('\n' :: (exSegC ++ ('\n' :: (exSegD ++ ['\n'])))))).take 2500)
      = '\n' :: exSegB := by
    rw [show ('\n' :: (exSegB ++ ('\n' :: (exSegC ++ ('\n' :: (exSegD ++ ['\n']))))))
        = ('\n' :: exSegB) ++ ('\n' :: (exSegC ++ ('\n' :: (exSegD ++ ['\n']))))
      from by rw [List.cons_append]]
    rw [show (2500 : Nat) = ('\n' :: exSegB).length
      from by rw [List.length_cons, hB], List.take_left]
  have hInner3 : lastNlIdx ('\n' :: (exSegD ++ ['\n'])) 2000 = some 0 := by
    rw [show (2000 : Nat) = 1999 + 1 from by norm_num]
    apply lastNlIdx_cons_nl_none
    rw [lastNlIdx_append_le exSegD _ 1999 (by rw [hD]; decide)]
    exact lastNlIdx_replicate 'd' (by decide) 2498 1999
  have hMid3 : lastNlIdx (exSegC ++ ('\n' :: (exSegD ++ ['\n']))) 3999 = some 1999 := by
    rw [show (3999 : Nat) = exSegC.length + 2000 from by rw [hC]]
    rw [lastNlIdx_nonl_append exSegC _ hnoC 2000, hInner3]
    simp [hC]
  have k3 : lastNlIdx ('\n' :: (exSegC ++ ('\n' :: (exSegD ++ ['\n'])))) MAX_LENGTH
      = some 2000 := by
    rw [show MAX_LENGTH = 3999 + 1 from by norm_num [MAX_LENGTH]]
    rw [lastNlIdx_cons_nl_some _ 3999 1999 hMid3]
  have hlen3 : MAX_LENGTH < ('\n' :: (exSegC ++ ('\n' :: (exSegD ++ ['\n'])))).length := by
    simp only [MAX_LENGTH, List.length_cons, List.length_append, List.length_nil,
      exSegC_length, exSegD_length]
    omega
  have s3 : chunkParts 8999 ('\n' :: (exSegC ++ ('\n' :: (exSegD ++ ['\n']))))
      = (chunkParts 8998 (('\n' :: (exSegC ++ ('\n' :: (exSegD ++ ['\n'])))).drop 2000)).map
          (fun rest => (('\n' :: (exSegC ++ ('\n' :: (exSegD ++ ['\n'])))).take 2000) :: rest) := by
    rw [show (8999 : Nat) = 8998 + 1 from by norm_num]
    exact chunkParts_step 8998 _ 2000 hlen3 (by rw [k3]; rfl)
  have d3 : (('\n' :: (exSegC ++ ('\n' :: (exSegD ++ ['\n'])))).drop 2000)
      = '\n' :: (exSegD ++ ['\n']) := by
    rw [show ('\n' :: (exSegC ++ ('\n' :: (exSegD ++ ['\n']))))
        = ('\n' :: exSegC) ++ ('\n' :: (exSegD ++ ['\n']))
      from by rw [List.cons_append]]
    rw [show (2000 : Nat) = ('\n' :: exSegC).length
      from by rw [List.length_cons, hC], List.drop_left]
  have t3 : (('\n' :: (exSegC ++ ('\n' :: (exSegD ++ ['\n'])))).take 2000) = '\n' :: exSegC := by
    rw [show ('\n' :: (exSegC ++ ('\n' :: (exSegD ++ ['\n']))))
        = ('\n' :: exSegC) ++ ('\n' :: (exSegD ++ ['\n']))
      from by rw [List.cons_append]]
    rw [show (2000 : Nat) = ('\n' :: exSegC).length
      from by rw [List.length_cons, hC], List.take_left]
  have hbase : chunkParts 8998 ('\n' :: (exSegD ++ ['\n']))
      = some ['\n' :: (exSegD ++ ['\n'])] := by
    refine chunkParts_base _ _ (List.cons_ne_nil _ _) ?_
    simp only [MAX_LENGTH, List.length_cons, List.length_append, List.length_nil, exSegD_length]
    omega
  refine ⟨exMsg_length, ?_⟩
  have hfinal : splitMessage exMsg
      = some [exSegA, '\n' :: exSegB, '\n' :: exSegC, '\n' :: (exSegD ++ ['\n'])] := by
    unfold splitMessage
    rw [exMsg_length, s1, d1, t1, s2, d2, t2, s3, d3, t3, hbase]
    rfl
  rw [hfinal]
  rfl

/-! ## Message dispatcher: the chunk-sending loop

The for loop at the end of send_telegram_message sends each part (prefixed
with a part marker when there is more than one part), overwrites last_result
with the parsed response of every post that returns, swallows per-part
exceptions, and finally returns last_result.  A response function
`resp i text` gives the parsed JSON (`none` models a raised exception, in
which case last_result keeps its previous value). -/

/-- The parsed transport response: the JSON object with its ok flag. -/
structure TgResult where
  ok : Bool
deriving DecidableEq

/-- How main interprets the dispatcher result: the result object must exist and carry a true ok flag
(no response at all is failure; the isinstance-list branch is dead code since
the dispatcher only ever returns one parsed response or None). -/
def dispatchOk : Option TgResult → Bool
  | some r => r.ok
  | none => false

/-- The f-string part marker [i/n]. -/
def partMarker (i n : Nat) : List Char :=
  ['['] ++ (Nat.repr i).toList ++ ['/'] ++ (Nat.repr n).toList ++ [']']

/-- text_to_send: the part itself when there is a single part, otherwise the
marker, a newline and the part. -/
def textToSend (n i : Nat) (p : List Char) : List Char :=
  if n = 1 then p else partMarker (i + 1) n ++ '\n' :: p

/-- The sending loop, carrying the running index and last_result. -/
def sendPartsGo (resp : Nat → List Char → Option TgResult) (n : Nat) :
    Nat → Option TgResult → List (List Char) → Option TgResult
  | _, acc, [] => acc
  | i, acc, p :: ps =>
    sendPartsGo resp n (i + 1)
      (match resp i (textToSend n i p) with
       | some r => some r
       | none => acc) ps

/-- The chunked-send loop of send_telegram_message over a given parts list. -/
def sendParts (resp : Nat → List Char → Option TgResult) (parts : List (List Char)) :
    Option TgResult :=
  sendPartsGo resp parts.length 0 none parts

/-- The sequence of per-part responses, in send order. -/
def sendResponses (resp : Nat → List Char → Option TgResult) (n : Nat) :
    Nat → List (List Char) → List (Option TgResult)
  | _, [] => []
  | i, p :: ps => resp i (textToSend n i p) :: sendResponses resp n (i + 1) ps

theorem getLast?_cons_or {α : Type} (a : α) (ys : List α) (acc : Option α) :
    ((a :: ys).getLast?).or acc = (ys.getLast?).or (some a) := by
  cases ys with
  | nil => rfl
  | cons b l =>
    rw [List.getLast?_cons_cons]
    cases h : (b :: l).getLast? with
    | none => exact absurd (List.getLast?_eq_none_iff.mp h) (List.cons_ne_nil b l)
    | some r => rfl

theorem sendPartsGo_eq_lastResponse (resp : Nat → List Char → Option TgResult) (n : Nat) :
    ∀ (ps : List (List Char)) (i : Nat) (acc : Option TgResult),
      sendPartsGo resp n i acc ps
        = (((sendResponses resp n i ps).filterMap id).getLast?).or acc := by
  intro ps
  induction ps with
  | nil => intro i acc; rfl
  | cons p ps ih =>
    intro i acc
    show sendPartsGo resp n (i + 1)
        (match resp i (textToSend n i p) with
         | some r => some r
         | none => acc) ps = _
    rw [ih]
    show _ = (((resp i (textToSend n i p)
        :: sendResponses resp n (i + 1) ps).filterMap id).getLast?).or acc
    cases hx : resp i (textToSend n i p) with
    | none => simp only [List.filterMap_cons, id]
    | some a =>
      simp only [List.filterMap_cons, id]
      rw [getLast?_cons_or a _ acc]

/-- C1 (amended): the chunked dispatch reports exactly the last response that
any chunk send produced — a send that raises leaves the previous result in
place, earlier ok:false responses are simply overwritten, and the outcome is
None (failure) only when no send returned at all.  Success of the reported
outcome therefore does not require every chunk to have succeeded. -/
theorem C1_dispatch_reports_last_response (resp : Nat → List Char → Option TgResult)
    (parts : List (List Char)) :
    sendParts resp parts
      = ((sendResponses resp parts.length 0 parts).filterMap id).getLast? := by
  show sendPartsGo resp parts.length 0 none parts = _
  rw [sendPartsGo_eq_lastResponse, Option.or_none]

/-- Response function for the C1 counterexample: the first chunk send reports
ok:false, every later one reports ok:true. -/
def respCE : Nat → List Char → Option TgResult :=
  fun i _ => some ⟨decide (1 ≤ i)⟩

/-- C1 counterexample: with two chunks whose sends report ok:false then
ok:true, the dispatcher returns the second response and main treats the run as
a success, although chunk 1 reported ok:false — the claim required overall
failure here. -/
theorem C1_counterexample :
    respCE 0 (textToSend 2 0 ['a']) = some ⟨false⟩ ∧
    sendParts respCE [['a'], ['b']] = some ⟨true⟩ ∧
    dispatchOk (sendParts respCE [['a'], ['b']]) = true := by
  refine ⟨rfl, ?_, ?_⟩ <;> rfl

/-! ## Candidate resolver and generation orchestrator -/

/-- Python str.replace with an explicit fuel equal to the string length: at
each position, when the pattern matches, emit the replacement and continue
after the match, otherwise keep the character; each step consumes at least one
character, so fuel = length covers the whole scan. -/
def replaceAllF (pat rep : List Char) : Nat → List Char → List Char
  | _, [] => []
  | 0, s => s
  | f + 1, c :: cs =>
    if pat.isPrefixOf (c :: cs) && !pat.isEmpty then
      rep ++ replaceAllF pat rep f ((c :: cs).drop pat.length)
    else
      c :: replaceAllF pat rep f cs

/-- s.replace(pat, rep) of Python, left-to-right and non-overlapping. -/
def replaceAll (pat rep s : List Char) : List Char :=
  replaceAllF pat rep s.length s

/-- The Python substring test `pat in s`: pat is a prefix of some suffix. -/
def isSubstringOf (pat : List Char) : List Char → Bool
  | [] => pat.isEmpty
  | c :: cs => pat.isPrefixOf (c :: cs) || isSubstringOf pat cs

/-- One entry returned by the model-listing endpoint: its name, and whether
generateContent appears among its supportedGenerationMethods. -/
structure ModelEntry where
  name : List Char
  supportsGenerate : Bool
deriving DecidableEq

/-- The outcome of the listing GET: a raised exception, or a status code with
the parsed list of models. -/
inductive ListModelsResp where
  | exn : ListModelsResp
  | http : Nat → List ModelEntry → ListModelsResp

/-- The hard-coded fallback_models list. -/
def fallback_models : List (List Char) :=
  ["gemini-2.0-flash".toList, "gemini-1.5-flash".toList, "gemini-1.5-flash-001".toList,
    "gemini-1.5-flash-002".toList, "gemini-pro".toList]

/-- The two dedup passes over raw_models: first every name containing flash
but not exp, then everything not already selected, each kept in original
order. -/
def prioritize (raw : List (List Char)) : List (List Char) :=
  let pass1 := raw.foldl
    (fun acc m =>
      if (isSubstringOf ("flash".toList) m && !(isSubstringOf ("exp".toList) m)) && !(acc.contains m)
      then acc ++ [m] else acc) []
  raw.foldl (fun acc m => if acc.contains m then acc else acc ++ [m]) pass1

/-- get_prioritized_models: fallback on exception or non-200; otherwise strip
the models/ prefix from every entry supporting generateContent and run the
two priority passes. -/
def get_prioritized_models (resp : ListModelsResp) : List (List Char) :=
  match resp with
  | .exn => fallback_models
  | .http status models =>
    if status ≠ 200 then fallback_models
    else prioritize ((models.filter (fun m => m.supportsGenerate)).map
          (fun m => replaceAll ("models/".toList) [] m.name))

/-- The outcome of one generateContent POST: a raised exception, or a status
code together with the extracted text payload when the response body has the
candidates-content-parts shape (none when the shape check fails). -/
inductive GenResp where
  | exn : GenResp
  | http : Nat → Option (List Char) → GenResp

/-- The success test of the inner loop: status 200 and the payload shape
present give the text, anything else is not a success. -/
def succPayload : GenResp → Option (List Char)
  | .exn => none
  | .http status payload => if status = 200 then payload else none

/-- specific_model_name.replace("models/models/", "models/"). -/
def normalizeName (v : List Char) : List Char :=
  replaceAll ("models/models/".toList) ("models/".toList) v

/-- variations: the name itself plus the models/ prefixed form, unless the
name already contains models/. -/
def variationsOf (m : List Char) : List (List Char) :=
  if isSubstringOf ("models/".toList) m then [m] else [m, "models/".toList ++ m]

/-- The inner for loop over the variations of one candidate: returns the
attempted (normalized) names in order plus the payload on success; a 429
breaks out after the current attempt, an exception or any other failure moves
to the next variation. -/
def runVars (resp : List Char → GenResp) : List (List Char) → List (List Char) × Option (List Char)
  | [] => ([], none)
  | v :: vs =>
    match resp (normalizeName v) with
    | .exn =>
      let r := runVars resp vs
      (normalizeName v :: r.1, r.2)
    | .http status payload =>
      if status = 200 then
        match payload with
        | some t => ([normalizeName v], some t)
        | none =>
          let r := runVars resp vs
          (normalizeName v :: r.1, r.2)
      else if status = 429 then ([normalizeName v], none)
      else
        let r := runVars resp vs
        (normalizeName v :: r.1, r.2)

/-- The outer for loop of generate_meal_plan over the candidate models:
returns all attempted names in order, and the first successful payload. -/
def runModels (resp : List Char → GenResp) : List (List Char) → List (List Char) × Option (List Char)
  | [] => ([], none)
  | m :: ms =>
    let r := runVars resp (variationsOf m)
    match r.2 with
    | some t => (r.1, some t)
    | none =>
      let q := runModels resp ms
      (r.1 ++ q.1, q.2)

/-- generate_meal_plan: resolve the candidates, then run the attempt loops;
none models the terminal raise when every candidate failed. -/
def generate_meal_plan (listResp : ListModelsResp) (genResp : List Char → GenResp) :
    Option (List Char) :=
  (runModels genResp (get_prioritized_models listResp)).2

theorem foldl_dedup_ne_nil :
    ∀ (l : List (List Char)) (acc : List (List Char)), (acc ≠ [] ∨ l ≠ []) →
      l.foldl (fun acc m => if acc.contains m then acc else acc ++ [m]) acc ≠ [] := by
  intro l
  induction l with
  | nil =>
    intro acc h
    cases h with
    | inl ha => exact ha
    | inr hl => exact absurd rfl hl
  | cons m t ih =>
    intro acc h
    show List.foldl _ (if acc.contains m then acc else acc ++ [m]) t ≠ []
    refine ih _ (Or.inl ?_)
    cases hc : acc.contains m with
    | true =>
      rw [if_pos rfl]
      intro hnil
      rw [hnil] at hc
      simp at hc
    | false =>
      rw [if_neg Bool.false_ne_true]
      simp

theorem prioritize_ne_nil (raw : List (List Char)) (h : raw ≠ []) : prioritize raw ≠ [] :=
  foldl_dedup_ne_nil raw _ (Or.inr h)

/-- C3 counterexample: a successful (status 200) capability listing in which
no entry supports generateContent makes the resolver return the empty list —
it does not fall back to the static list, refuting the claim that the
resolver always returns a non-empty sequence. -/
theorem C3_counterexample :
    get_prioritized_models (ListModelsResp.http 200 [⟨"gemini-pro".toList, false⟩]) = [] := by
  rfl

/-- C3 (amended): on a raised transport exception or a non-200 status the
resolver returns the (non-empty) static fallback list; on a 200 response it
returns the prioritized filtered list, which is empty exactly when the
filtered capability set is empty — there is no fallback in that case. -/
theorem C3_resolver_fallback (status : Nat) (models : List ModelEntry) :
    get_prioritized_models ListModelsResp.exn = fallback_models ∧
    fallback_models ≠ [] ∧
    (status ≠ 200 → get_prioritized_models (ListModelsResp.http status models) = fallback_models) ∧
    (get_prioritized_models (ListModelsResp.http 200 models) = []
        ↔ models.filter (fun m => m.supportsGenerate) = []) := by
  refine ⟨rfl, List.cons_ne_nil _ _, ?_, ?_⟩
  · intro hs
    show (if status ≠ 200 then fallback_models else _) = fallback_models
    rw [if_pos hs]
  · show (if (200 : Nat) ≠ 200 then fallback_models else _) = [] ↔ _
    rw [if_neg (fun hcontra => hcontra rfl)]
    constructor
    · intro hp
      by_contra hf
      refine prioritize_ne_nil _ ?_ hp
      intro hm
      exact hf (List.map_eq_nil_iff.mp hm)
    · intro hf
      rw [hf]
      rfl

/-- C3 witness: the amended resolver facts at status 500 and an empty model
list, with the non-200 hypothesis discharged concretely. -/
theorem C3_resolver_fallback_witness :
    get_prioritized_models ListModelsResp.exn = fallback_models ∧
    fallback_models ≠ [] ∧
    get_prioritized_models (ListModelsResp.http 500 []) = fallback_models ∧
    (get_prioritized_models (ListModelsResp.http 200 []) = []
        ↔ ([] : List ModelEntry).filter (fun m => m.supportsGenerate) = []) := by
  obtain ⟨h1, h2, h3, h4⟩ := C3_resolver_fallback 500 ([] : List ModelEntry)
  exact ⟨h1, h2, h3 (by decide), h4⟩

theorem variationsOf_cons (m : List Char) : ∃ tail, variationsOf m = m :: tail := by
  unfold variationsOf
  by_cases hin : isSubstringOf ("models/".toList) m = true
  · exact ⟨[], by rw [if_pos hin]⟩
  · exact ⟨["models/".toList ++ m], by rw [if_neg hin]⟩

/-- C6: when the first variation of a candidate answers with a 429 quota
status, the orchestrator records exactly that one attempt for the candidate
(the inner loop breaks before the second name variation) and continues with
the remaining candidates unchanged. -/
theorem C6_quota_single_attempt (resp : List Char → GenResp) (m : List Char)
    (ms : List (List Char)) (payload : Option (List Char))
    (hq : resp (normalizeName m) = GenResp.http 429 payload) :
    runModels resp (m :: ms)
      = (normalizeName m :: (runModels resp ms).1, (runModels resp ms).2) := by
  obtain ⟨tail, htail⟩ := variationsOf_cons m
  have hv : runVars resp (variationsOf m) = ([normalizeName m], none) := by
    rw [htail]
    simp [runVars, hq]
  simp [runModels, hv]

/-- Constant quota response for the C6 witness. -/
def respQuota : List Char → GenResp := fun _ => GenResp.http 429 none

/-- C6 witness: a single candidate answering 429 produces exactly one attempt
and falls through to the (empty) remaining candidates. -/
theorem C6_quota_single_attempt_witness :
    runModels respQuota ["gemini-pro".toList]
      = (normalizeName ("gemini-pro".toList) :: (runModels respQuota []).1,
          (runModels respQuota []).2) :=
  C6_quota_single_attempt respQuota ("gemini-pro".toList) [] none rfl

theorem succPayload_some (r : GenResp) (p : List Char) (h : succPayload r = some p) :
    r = GenResp.http 200 (some p) := by
  cases r with
  | exn => cases h
  | http status payload =>
    simp only [succPayload] at h
    by_cases hs : status = 200
    · rw [if_pos hs] at h
      rw [hs, h]
    · rw [if_neg hs] at h
      cases h

theorem runVars_no_success (resp : List Char → GenResp) :
    ∀ vs : List (List Char),
      (∀ v ∈ vs, succPayload (resp (normalizeName v)) = none) →
      (runVars resp vs).2 = none := by
  intro vs
  induction vs with
  | nil => intro h; rfl
  | cons v vs ih =>
    intro h
    have hv := h v (List.mem_cons_self v vs)
    have hrest := ih (fun x hx => h x (List.mem_cons_of_mem v hx))
    cases hr : resp (normalizeName v) with
    | exn => simp [runVars, hr, hrest]
    | http status payload =>
      by_cases hs : status = 200
      · subst hs
        rw [hr] at hv
        have hp : payload = none := by simpa [succPayload] using hv
        subst hp
        simp [runVars, hr, hrest]
      · by_cases h429 : status = 429
        · subst h429
          simp [runVars, hr]
        · simp [runVars, hr, hs, h429, hrest]

theorem runVars_first_success (resp : List Char → GenResp) (v : List Char)
    (vs : List (List Char)) (p : List Char)
    (h : succPayload (resp (normalizeName v)) = some p) :
    runVars resp (v :: vs) = ([normalizeName v], some p) := by
  have hr := succPayload_some _ _ h
  simp [runVars, hr]

theorem runModels_cons_none (resp : List Char → GenResp) (m : List Char)
    (ms : List (List Char)) (h2 : (runVars resp (variationsOf m)).2 = none) :
    runModels resp (m :: ms)
      = ((runVars resp (variationsOf m)).1 ++ (runModels resp ms).1,
          (runModels resp ms).2) := by
  simp [runModels, h2]

/-- C7: with every variation of every earlier candidate failing and the
succeeding candidate answering success on its first attempted name, the
orchestrator returns the payload of that candidate, its attempt log is the earlier
attempts plus exactly one attempt for the successful candidate, and the
candidates after it contribute nothing — the result does not depend on them
at all. -/
theorem C7_first_success (resp : List Char → GenResp) (pre : List (List Char))
    (m : List Char) (post : List (List Char)) (p : List Char)
    (hpre : ∀ m2 ∈ pre, ∀ v ∈ variationsOf m2, succPayload (resp (normalizeName v)) = none)
    (hm : succPayload (resp (normalizeName m)) = some p) :
    runModels resp (pre ++ m :: post)
      = ((runModels resp pre).1 ++ [normalizeName m], some p) := by
  induction pre with
  | nil =>
    obtain ⟨tail, htail⟩ := variationsOf_cons m
    have hv : runVars resp (variationsOf m) = ([normalizeName m], some p) := by
      rw [htail]
      exact runVars_first_success resp m tail p hm
    simp [runModels, hv]
  | cons a pre ih =>
    have ha : ∀ v ∈ variationsOf a, succPayload (resp (normalizeName v)) = none :=
      hpre a (List.mem_cons_self a pre)
    have hpre2 : ∀ m2 ∈ pre, ∀ v ∈ variationsOf m2,
        succPayload (resp (normalizeName v)) = none :=
      fun m2 hm2 => hpre m2 (List.mem_cons_of_mem a hm2)
    have hva : (runVars resp (variationsOf a)).2 = none := runVars_no_success resp _ ha
    rw [List.cons_append, runModels_cons_none resp a (pre ++ m :: post) hva, ih hpre2,
      runModels_cons_none resp a pre hva]
    simp [List.append_assoc]

/-- Response function for the C7 witness: gemini-pro succeeds, everything else
answers 500. -/
def respFirstWin : List Char → GenResp :=
  fun v => if v = "gemini-pro".toList then GenResp.http 200 (some ['o', 'k'])
           else GenResp.http 500 none

/-- C7 witness: with a failing candidate before it and another candidate after
it, the payload of the succeeding candidate is returned, the later candidate is
never attempted, and the hypotheses are discharged by evaluation. -/
theorem C7_first_success_witness :
    runModels respFirstWin
        (["bad-model".toList] ++ "gemini-pro".toList :: ["gemini-2.0-flash".toList])
      = ((runModels respFirstWin ["bad-model".toList]).1
          ++ [normalizeName ("gemini-pro".toList)], some ['o', 'k']) :=
  C7_first_success respFirstWin ["bad-model".toList] ("gemini-pro".toList)
    ["gemini-2.0-flash".toList] ['o', 'k'] (by decide) (by decide)

/-! ## Run controller (main) -/

/-- Python str.split of the plan text on newlines (an empty string still
yields one empty field). -/
def splitNl : List Char → List (List Char)
  | [] => [[]]
  | c :: cs =>
    match splitNl cs with
    | [] => [[]]
    | h :: t => if c = '\n' then [] :: h :: t else (c :: h) :: t

/-- send_telegram_message: a single post (whose parsed response, or raised
exception, is returned directly) when the message fits, otherwise split and
run the chunk loop.  The outer `none` marks the split loop never returning
(see C10); an exception from the single post and a chunk loop whose every post
raised are both reported as no response, which main treats as failure either
way. -/
def send_telegram_message (resp : Nat → List Char → Option TgResult)
    (message : List Char) : Option (Option TgResult) :=
  if message.length ≤ MAX_LENGTH then some (resp 0 message)
  else (splitMessage message).map (sendParts resp)

/-- Everything main reads from its surroundings: the stored history file, the
prune cutoff and calendar facts from datetime.now(), the responses of the
three HTTP interactions, and the message header prefixed to the plan. -/
structure Env where
  file : Option (Option History)
  cutoff : String
  weekday : Nat
  today : String
  listResp : ListModelsResp
  genResp : List Char → GenResp
  tgResp : Nat → List Char → Option TgResult
  header : List Char

/-- The Python main: load, prune, gate, generate, dispatch, and only on a dispatch result
whose ok flag is set append the record for today, set last_sent and write the
file.  The result is the final file contents plus whether save_history ran;
`none` is the hung dispatch loop.  Every caught failure (generation raise,
dispatch without ok) prints and returns, leaving the file untouched. -/
def mainRun (env : Env) : Option (Option (Option History) × Bool) :=
  match load_history env.file with
  | .error _ => some (env.file, false)
  | .ok h0 =>
    if should_send_today env.weekday env.today (clean_old_recipes env.cutoff h0) then
      match generate_meal_plan env.listResp env.genResp with
      | none => some (env.file, false)
      | some plan =>
        match send_telegram_message env.tgResp (env.header ++ plan) with
        | none => none
        | some result =>
          if dispatchOk result then
            some (some (some ⟨(clean_old_recipes env.cutoff h0).recipes
                ++ [⟨env.today, (splitNl plan).take 4⟩], some env.today⟩), true)
          else some (env.file, false)
    else some (env.file, false)

/-- C9: whenever a run returns, the stored file changed only on the full
success path: if no save happened the file equals the input file, and a save
happened only when the load succeeded, generation returned a plan, the
dispatch reported a response whose ok flag is true, and then the written state
is the pruned history plus the appended record for today. -/
theorem C9_failure_leaves_history (env : Env) (f : Option (Option History)) (w : Bool)
    (hrun : mainRun env = some (f, w)) :
    (w = false → f = env.file) ∧
    (w = true → ∃ h0 plan result,
      load_history env.file = Except.ok h0 ∧
      generate_meal_plan env.listResp env.genResp = some plan ∧
      send_telegram_message env.tgResp (env.header ++ plan) = some result ∧
      dispatchOk result = true ∧
      f = some (some ⟨(clean_old_recipes env.cutoff h0).recipes
            ++ [⟨env.today, (splitNl plan).take 4⟩], some env.today⟩)) := by
  cases hL : load_history env.file with
  | error e =>
    have hmain : mainRun env = some (env.file, false) := by simp [mainRun, hL]
    rw [hmain] at hrun
    cases hrun
    exact ⟨fun _ => rfl, fun hcontra => Bool.noConfusion hcontra⟩
  | ok h0 =>
    by_cases hg : should_send_today env.weekday env.today
        (clean_old_recipes env.cutoff h0) = true
    · cases hgen : generate_meal_plan env.listResp env.genResp with
      | none =>
        have hmain : mainRun env = some (env.file, false) := by simp [mainRun, hL, hg, hgen]
        rw [hmain] at hrun
        cases hrun
        exact ⟨fun _ => rfl, fun hcontra => Bool.noConfusion hcontra⟩
      | some plan =>
        cases hsend : send_telegram_message env.tgResp (env.header ++ plan) with
        | none =>
          have hmain : mainRun env = none := by simp [mainRun, hL, hg, hgen, hsend]
          rw [hmain] at hrun
          cases hrun
        | some result =>
          by_cases hok : dispatchOk result = true
          · have hmain : mainRun env
                = some (some (some ⟨(clean_old_recipes env.cutoff h0).recipes
                    ++ [⟨env.today, (splitNl plan).take 4⟩], some env.today⟩), true) := by
              simp [mainRun, hL, hg, hgen, hsend, hok]
            rw [hmain] at hrun
            cases hrun
            refine ⟨fun hcontra => Bool.noConfusion hcontra, fun _ => ?_⟩
            exact ⟨h0, plan, result, rfl, rfl, hsend, hok, rfl⟩
          · have hmain : mainRun env = some (env.file, false) := by
              simp [mainRun, hL, hg, hgen, hsend, hok]
            rw [hmain] at hrun
            cases hrun
            exact ⟨fun _ => rfl, fun hcontra => Bool.noConfusion hcontra⟩
    · have hmain : mainRun env = some (env.file, false) := by simp [mainRun, hL, hg]
      rw [hmain] at hrun
      cases hrun
      exact ⟨fun _ => rfl, fun hcontra => Bool.noConfusion hcontra⟩

/-- Environment for the C9 witness: empty storage, a Monday not yet sent, the
model listing raising (so the static fallback list is used) and every
generation attempt answering 500, so generation fails terminally. -/
def exEnv9 : Env where
  file := none
  cutoff := "2026-09-28T12:00:00"
  weekday := 0
  today := "2026-10-12"
  listResp := ListModelsResp.exn
  genResp := fun _ => GenResp.http 500 none
  tgResp := fun _ _ => none
  header := []

/-- C9 witness: in the terminal-generation-failure run the returned file state
equals the input file state, obtained through the main theorem. -/
theorem C9_failure_leaves_history_witness :
    mainRun exEnv9 = some ((none : Option (Option History)), false) ∧
    (none : Option (Option History)) = exEnv9.file := by
  have hrun : mainRun exEnv9 = some ((none : Option (Option History)), false) := by decide
  exact ⟨hrun, (C9_failure_leaves_history exEnv9 none false hrun).1 rfl⟩
